import Mathlib

/-!
Verification of the multiple-sequence-alignment pipeline of
`Multiple_Sequence_Alignment.ipynb` against its specification.

The notebook itself contains only the glue stages (sequence retrieval,
length filtering, invocation of an external ClustalW-class aligner, row
truncation for display, and a consensus call).  The alignment engine that
the specification defines (pairwise Gotoh alignment, distance matrix,
UPGMA guide tree, progressive merging, consensus) is not part of the
repository's source: it is modelled here from the specification text, and
each such definition is marked `Modelled from the spec:` in its doc
comment.  The length filter and the display truncation are embedded
directly from the notebook code.
-/

attribute [local semireducible] Rat.add Rat.mul Rat.inv Rat.sub Rat.ofScientific

/-- The designated gap symbol of the alphabet (spec §3, Alphabet). -/
def gapSym : Char := '-'

/-- The designated ambiguous/unknown symbol of the alphabet (spec §3, Alphabet). -/
def ambiguousSym : Char := 'X'

/-- Modelled from the spec: the error taxonomy of §7; these recoverable error
values are produced by the engine that the repository invokes as an external
tool, so the engine itself is missing from the source. -/
inductive AlignError where
  | EmptySequence
  | AlphabetMismatch
  | InsufficientInput
  | InconsistentAlignmentWidth
deriving DecidableEq, Repr

/-- A biological sequence: an identifier and an ordered list of residue
symbols (spec §3, Sequence). -/
structure Sequence where
  id : String
  residues : List Char
deriving DecidableEq, Repr

/-- The default sequence used for out-of-range indexing. -/
def dfltSeq : Sequence := ⟨"", []⟩

/-- One aligned row of an Alignment: a sequence identifier together with its
aligned string of data symbols and gaps (spec §3, Alignment). -/
abbrev Row := String × List Char

/-- Remove every gap symbol from an aligned row. -/
def degap (l : List Char) : List Char := l.filter (fun c => !(c == gapSym))

/-- Embedded from the notebook: the length-filtering loop that starts from an
empty list and appends each fetched sequence whose length is between 1200 and
1600 inclusive. -/
def filtered_sequences : List Sequence → List Sequence
  | [] => []
  | s :: rest =>
      if 1200 ≤ s.residues.length ∧ s.residues.length ≤ 1600 then
        s :: filtered_sequences rest
      else
        filtered_sequences rest

/-- Embedded from the notebook: each displayed alignment row is truncated to
its first 90 characters, and the marker "....." is appended when the row is
strictly longer than 90 characters. -/
def truncated_seq (s : List Char) : List Char :=
  let t := s.take 90
  if s.length > 90 then t ++ ".....".toList else t

/-- C9: the length-filtering step keeps exactly the sequences whose length L
satisfies 1200 ≤ L ≤ 1600, unchanged and in their original relative order:
it agrees with `List.filter` on that length predicate, and its output is a
sublist (hence an order-preserving selection) of its input. -/
theorem filtered_sequences_spec (l : List Sequence) :
    filtered_sequences l =
      l.filter (fun s => decide (1200 ≤ s.residues.length) &&
        decide (s.residues.length ≤ 1600)) ∧
    (filtered_sequences l).Sublist l := by
  constructor
  · induction l with
    | nil => rfl
    | cons s rest ih =>
        by_cases h : 1200 ≤ s.residues.length ∧ s.residues.length ≤ 1600
        · simp [filtered_sequences, h, List.filter_cons, h.1, h.2, ih]
        · rw [Decidable.not_and_iff_or_not] at h
          rcases h with h | h
          · simp [filtered_sequences, List.filter_cons, ih,
              Nat.not_le.mp h, Nat.lt_iff_add_one_le, fun hc => h hc]
          · simp [filtered_sequences, List.filter_cons, ih, fun hc => h hc]
  · induction l with
    | nil => exact List.Sublist.refl _
    | cons s rest ih =>
        by_cases h : 1200 ≤ s.residues.length ∧ s.residues.length ≤ 1600
        · simpa [filtered_sequences, h] using List.Sublist.cons₂ s ih
        · simpa [filtered_sequences, h] using List.Sublist.cons s ih

/-- C10: each displayed row is exactly the first 90 characters of the aligned
row, with the marker "....." appended precisely when the row is strictly
longer than 90 characters, and a row of at most 90 characters (in particular
exactly 90) is printed whole with no marker. -/
theorem truncated_seq_spec (s : List Char) :
    truncated_seq s =
      s.take 90 ++ (if 90 < s.length then ".....".toList else []) ∧
    (s.length ≤ 90 → truncated_seq s = s) := by
  constructor
  · by_cases h : 90 < s.length
    · simp [truncated_seq, h]
    · simp [truncated_seq, h]
  · intro h
    simp [truncated_seq, Nat.not_lt.mpr h, List.take_of_length_le h]

/-- Witness for C10 at concrete inputs: a 91-character row gets the marker and
a 3-character row is printed whole. -/
theorem truncated_seq_spec_witness :
    truncated_seq (List.replicate 91 'A') =
      (List.replicate 91 'A').take 90 ++
        (if 90 < (List.replicate 91 'A').length then ".....".toList else []) ∧
    truncated_seq ['A', 'C', 'G'] = ['A', 'C', 'G'] :=
  ⟨(truncated_seq_spec (List.replicate 91 'A')).1,
   (truncated_seq_spec ['A', 'C', 'G']).2 (by decide)⟩

/-- Modelled from the spec: a ScoringScheme (§3) bundles a symbol-by-symbol
substitution score together with affine gap penalties; the engine holding the
real implementation is the external ClustalW-class tool, absent from the
source. -/
structure ScoringScheme where
  sub : Char → Char → ℚ
  gapOpen : ℚ
  gapExtend : ℚ

/-- Maximum of two optional scores, where `none` stands for an impossible
state (score minus infinity). -/
def oMax : Option ℚ → Option ℚ → Option ℚ
  | none, y => y
  | some x, none => some x
  | some x, some y => some (max x y)

/-- Add a constant penalty to an optional score. -/
def oAdd (c : ℚ) : Option ℚ → Option ℚ
  | none => none
  | some x => some (x + c)

/-- Modelled from the spec: the three-state Gotoh dynamic program of §4.1,
absent from the source.  `gotohDP cs go ge fuel i j` returns, for the prefix
lengths `(i, j)`, the triple (best score ending in a match/substitution, best
score ending with a gap in the first input's rows, best score ending with a
gap in the second input's rows).  `cs i j` is the substitution score between
column `i` of the first input and column `j` of the second; `go`/`ge` are the
affine gap-open and gap-extend penalties, so a gap of length L costs
go + (L-1)·ge.  `fuel` bounds the recursion depth and must be at least
`i + j`. -/
def gotohDP (cs : Nat → Nat → ℚ) (go ge : ℚ) :
    Nat → Nat → Nat → Option ℚ × Option ℚ × Option ℚ
  | _, 0, 0 => (some 0, none, none)
  | 0, _, _ => (none, none, none)
  | f + 1, 0, j + 1 =>
      let p := gotohDP cs go ge f 0 j
      (none, oMax (oAdd go (oMax p.1 p.2.2)) (oAdd ge p.2.1), none)
  | f + 1, i + 1, 0 =>
      let p := gotohDP cs go ge f i 0
      (none, none, oMax (oAdd go (oMax p.1 p.2.1)) (oAdd ge p.2.2))
  | f + 1, i + 1, j + 1 =>
      let d := gotohDP cs go ge f i j
      let l := gotohDP cs go ge f (i + 1) j
      let u := gotohDP cs go ge f i (j + 1)
      ( oAdd (cs i j) (oMax (oMax d.1 d.2.1) d.2.2)
      , oMax (oAdd go (oMax l.1 l.2.2)) (oAdd ge l.2.1)
      , oMax (oAdd go (oMax u.1 u.2.1)) (oAdd ge u.2.2) )

/-- The Gotoh table cell for prefix lengths `(i, j)`, run with just enough
fuel. -/
def gotohCell (cs : Nat → Nat → ℚ) (go ge : ℚ) (i j : Nat) :
    Option ℚ × Option ℚ × Option ℚ :=
  gotohDP cs go ge (i + j) i j

/-- Modelled from the spec: the optimal global alignment score of §4.1, the
best of the three Gotoh states at the final cell. -/
def alignScoreQ (cs : Nat → Nat → ℚ) (go ge : ℚ) (m n : Nat) : Option ℚ :=
  let c := gotohCell cs go ge m n
  oMax (oMax c.1 c.2.1) c.2.2

/-- One column step of a merge path: both inputs contribute a column, or only
the first does, or only the second does. -/
inductive Move where
  | both
  | onlyA
  | onlyB
deriving DecidableEq, Repr

/-- Modelled from the spec: the traceback of §4.1, absent from the source.
It recovers one path through the Gotoh table, breaking ties by the fixed
priority match/substitution first, then gap in the first input's rows, then
gap in the second input's rows.  `fuel` must be at least `i + j`. -/
def tracebackF (cs : Nat → Nat → ℚ) (go ge : ℚ) :
    Nat → Nat → Nat → List Move
  | _, 0, 0 => []
  | 0, _, _ => []
  | f + 1, 0, j + 1 => tracebackF cs go ge f 0 j ++ [Move.onlyB]
  | f + 1, i + 1, 0 => tracebackF cs go ge f i 0 ++ [Move.onlyA]
  | f + 1, i + 1, j + 1 =>
      let c := gotohCell cs go ge (i + 1) (j + 1)
      let best := oMax (oMax c.1 c.2.1) c.2.2
      if c.1 = best then tracebackF cs go ge f i j ++ [Move.both]
      else if c.2.1 = best then tracebackF cs go ge f (i + 1) j ++ [Move.onlyB]
      else tracebackF cs go ge f i (j + 1) ++ [Move.onlyA]

/-- The traceback path for full widths `(m, n)`. -/
def traceback (cs : Nat → Nat → ℚ) (go ge : ℚ) (m n : Nat) : List Move :=
  tracebackF cs go ge (m + n) m n

/-- Rebuild one aligned row along a merge path: at a move satisfying `f` the
row receives a gap, at any other move it contributes its next character. -/
def insertGapsBy (f : Move → Bool) : List Move → List Char → List Char
  | [], _ => []
  | mv :: p, r =>
      if f mv then gapSym :: insertGapsBy f p r
      else r.headD gapSym :: insertGapsBy f p (r.drop 1)

/-- The aligned width of an alignment: the length of its first row. -/
def alWidth (A : List Row) : Nat := (A.headD ("", [])).2.length

/-- Column `j` of an alignment, one symbol per contained row. -/
def colAt (A : List Row) (j : Nat) : List Char :=
  A.map (fun r => r.2.getD j gapSym)

/-- Sum of `sub x y` over all pairs drawn one from each list. -/
def pairScoreSum (sub : Char → Char → ℚ) (xs ys : List Char) : ℚ :=
  (xs.map (fun x => (ys.map (fun y => sub x y)).sum)).sum

/-- Modelled from the spec: the profile substitution cost of §4.1, absent
from the source — the sum of the scheme's scores over every pair of residues
drawn one from each column (gaps excluded), normalized by the pair count;
a pair-free (all-gap) column pairing scores 0. -/
def colScore (sub : Char → Char → ℚ) (c1 c2 : List Char) : ℚ :=
  let xs := degap c1
  let ys := degap c2
  if xs.length * ys.length = 0 then 0
  else pairScoreSum sub xs ys / ((xs.length * ys.length : Nat) : ℚ)

/-- Modelled from the spec: the Pairwise Aligner of §4.1, absent from the
source.  Given two Alignments it returns the optimal global affine-gap
alignment score and the merged Alignment: every row of the first input gets a
gap exactly at the path's `onlyB` columns, every row of the second input gets
a gap exactly at the path's `onlyA` columns. -/
def alignPair (sc : ScoringScheme) (A B : List Row) : Option ℚ × List Row :=
  let m := alWidth A
  let n := alWidth B
  let cs := fun i j => colScore sc.sub (colAt A i) (colAt B j)
  let path := traceback cs sc.gapOpen sc.gapExtend m n
  ( alignScoreQ cs sc.gapOpen sc.gapExtend m n
  , A.map (fun r => (r.1, insertGapsBy (fun mv => mv == Move.onlyB) path r.2))
      ++ B.map (fun r => (r.1, insertGapsBy (fun mv => mv == Move.onlyA) path r.2)) )

/-- Modelled from the spec: a GuideTree (§3), absent from the source — a
binary tree whose leaves are (indices of) the original sequences and whose
internal nodes carry the merge height. -/
inductive GuideTree where
  | leaf : Nat → GuideTree
  | node : ℚ → GuideTree → GuideTree → GuideTree
deriving DecidableEq, Repr

/-- The list of leaf indices of a guide tree, left to right. -/
def leavesOf : GuideTree → List Nat
  | .leaf i => [i]
  | .node _ l r => leavesOf l ++ leavesOf r

/-- Modelled from the spec: a cluster of the UPGMA iteration (§4.3), holding
the original identifiers it contains and the subtree built for it. -/
structure Cluster where
  members : List Nat
  tree : GuideTree
deriving DecidableEq, Repr

/-- The smallest original identifier contained in a cluster (0 for the empty
cluster, which the algorithm never builds). -/
def minId (c : Cluster) : Nat :=
  match c.members with
  | [] => 0
  | m :: ms => ms.foldl Nat.min m

/-- All cross pairs of two identifier lists. -/
def crossPairs (xs ys : List Nat) : List (Nat × Nat) :=
  xs.flatMap (fun i => ys.map (fun j => (i, j)))

/-- Modelled from the spec: the UPGMA inter-cluster distance (§4.3), absent
from the source — the arithmetic mean of the original distances over all
cross pairs of members, which is the closed form of the size-weighted
average update rule the spec describes; a memberless pairing scores 0. -/
def cdist (d : Nat → Nat → ℚ) (a b : Cluster) : ℚ :=
  let ps := crossPairs a.members b.members
  if ps.length = 0 then 0
  else (ps.map (fun p => d p.1 p.2)).sum / ((ps.length : Nat) : ℚ)

/-- All unordered pairs of elements of a list, each pair in list order. -/
def pairsOf {α : Type} : List α → List (α × α)
  | [] => []
  | x :: xs => xs.map (fun y => (x, y)) ++ pairsOf xs

/-- The identifier key of a candidate merge pair: the two clusters' smallest
contained original identifiers, ordered. -/
def minKey (a b : Cluster) : Nat × Nat :=
  (Nat.min (minId a) (minId b), Nat.max (minId a) (minId b))

/-- Strict lexicographic order on (distance, identifier key) triples, used to
pick the merge pair deterministically. -/
abbrev tripLtP (x y : ℚ × Nat × Nat) : Prop :=
  x.1 < y.1 ∨ (x.1 = y.1 ∧ (x.2.1 < y.2.1 ∨ (x.2.1 = y.2.1 ∧ x.2.2 < y.2.2)))

/-- The selection key of a candidate merge pair. -/
def pairKey (d : Nat → Nat → ℚ) (pq : Cluster × Cluster) : ℚ × Nat × Nat :=
  (cdist d pq.1 pq.2, (minKey pq.1 pq.2).1, (minKey pq.1 pq.2).2)

/-- Left fold that keeps the best element seen so far, replacing the current
one only when a strictly better one appears. -/
def bestBy {α : Type} (lt : α → α → Bool) : α → List α → α
  | x, [] => x
  | x, y :: ys => bestBy lt (if lt x y then y else x) ys

/-- Modelled from the spec: the merge-pair selection of §4.3, absent from the
source — among all current cluster pairs, pick the one of minimum average
distance, breaking ties by the lexicographically smallest pair of
smallest-contained original identifiers. -/
def selectPair (d : Nat → Nat → ℚ) (cs : List Cluster) :
    Option (Cluster × Cluster) :=
  match pairsOf cs with
  | [] => none
  | p :: ps =>
      some (bestBy (fun a b => decide (tripLtP (pairKey d b) (pairKey d a))) p ps)

/-- Modelled from the spec: one UPGMA merge step (§4.3), absent from the
source — the selected pair is joined into a new internal node at height equal
to its distance and the two merged clusters leave the pool. -/
def upgmaStep (d : Nat → Nat → ℚ) (cs : List Cluster) : List Cluster :=
  match selectPair d cs with
  | none => cs
  | some (a, b) =>
      ⟨a.members ++ b.members, GuideTree.node (cdist d a b) a.tree b.tree⟩ ::
        ((cs.erase a).erase b)

/-- Iterate the UPGMA merge step a fixed number of times. -/
def upgmaIter (d : Nat → Nat → ℚ) : Nat → List Cluster → List Cluster
  | 0, cs => cs
  | k + 1, cs => upgmaIter d k (upgmaStep d cs)

/-- The initial singleton clusters for identifiers 0..n-1. -/
def initClusters (n : Nat) : List Cluster :=
  (List.range n).map (fun i => ⟨[i], GuideTree.leaf i⟩)

/-- Modelled from the spec: the Guide Tree Builder (§4.3), absent from the
source — n-1 UPGMA merges over the singleton clusters, returning the root's
tree. -/
def upgma (n : Nat) (d : Nat → Nat → ℚ) : GuideTree :=
  ((upgmaIter d (n - 1) (initClusters n)).headD ⟨[], GuideTree.leaf 0⟩).tree

/-- Modelled from the spec: the Progressive Aligner (§4.4), absent from the
source — a post-order traversal of the guide tree; a leaf is the degenerate
single-sequence Alignment, an internal node merges its children's Alignments
with the Pairwise Aligner. -/
def progressiveAlign (sc : ScoringScheme) (seqs : List Sequence) :
    GuideTree → List Row
  | .leaf i =>
      [((seqs.getD i dfltSeq).id, (seqs.getD i dfltSeq).residues)]
  | .node _ l r =>
      (alignPair sc (progressiveAlign sc seqs l) (progressiveAlign sc seqs r)).2

/-- Modelled from the spec: the pairwise distance of §4.2, absent from the
source — one minus the identity fraction over the aligned columns in which
neither sequence has a gap (distance 1 when no such column exists). -/
def seqDistance (sc : ScoringScheme) (s t : Sequence) : ℚ :=
  let merged := (alignPair sc [(s.id, s.residues)] [(t.id, t.residues)]).2
  let r1 := (merged.getD 0 ("", [])).2
  let r2 := (merged.getD 1 ("", [])).2
  let ps := (r1.zip r2).filter (fun p => !(p.1 == gapSym) && !(p.2 == gapSym))
  if ps.length = 0 then 1
  else 1 - (((ps.filter (fun p => p.1 == p.2)).length : Nat) : ℚ) / ((ps.length : Nat) : ℚ)

/-- Modelled from the spec: the Distance Matrix Builder (§4.2), absent from
the source — it refuses fewer than 3 sequences with `InsufficientInput` and
otherwise tabulates all pairwise distances. -/
def distMatrixB (sc : ScoringScheme) (seqs : List Sequence) :
    Except AlignError (List (List ℚ)) :=
  if seqs.length < 3 then .error .InsufficientInput
  else
    .ok ((List.range seqs.length).map (fun i =>
      (List.range seqs.length).map (fun j =>
        seqDistance sc (seqs.getD i dfltSeq) (seqs.getD j dfltSeq))))

/-- Modelled from the spec: the full pipeline entry point `align` (§6),
absent from the source — it validates the input (sequence count first, then
alphabet membership, then non-emptiness), degrades two sequences to a direct
pairwise alignment, and otherwise builds the distance matrix, the UPGMA guide
tree and the progressive alignment. -/
def msaAlign (alpha : List Char) (sc : ScoringScheme) (seqs : List Sequence) :
    Except AlignError (List Row) :=
  if seqs.length < 2 then .error .InsufficientInput
  else if seqs.any (fun s => s.residues.any (fun c => !(alpha.contains c))) then
    .error .AlphabetMismatch
  else if seqs.any (fun s => s.residues.isEmpty) then .error .EmptySequence
  else if seqs.length = 2 then
    .ok (progressiveAlign sc seqs (GuideTree.node 0 (.leaf 0) (.leaf 1)))
  else
    match distMatrixB sc seqs with
    | .error e => .error e
    | .ok M =>
        .ok (progressiveAlign sc seqs
          (upgma seqs.length (fun i j => (M.getD i []).getD j 0)))

/-- Modelled from the spec: the default consensus majority threshold (§4.5),
absent from the source — the fraction 0.5. -/
def defaultConsensusThreshold : ℚ := 1 / 2

/-- The symbols of a column that are not the gap symbol. -/
def nonGapOf (col : List Char) : List Char := degap col

/-- A most frequent element of a character list (`none` on the empty list);
ties go to the earlier first occurrence. -/
def mostFrequent (l : List Char) : Option Char :=
  match l.dedup with
  | [] => none
  | s :: rest =>
      some (bestBy (fun a b => decide (l.count a < l.count b)) s rest)

/-- Modelled from the spec: the per-column consensus rule of §4.5, absent
from the source — tally the non-gap symbols among the k rows; emit a most
frequent one when its count divided by k reaches the threshold, and the
ambiguous symbol otherwise (in particular on gap-only columns). -/
def colConsensus (θ : ℚ) (col : List Char) : Char :=
  match mostFrequent (nonGapOf col) with
  | none => ambiguousSym
  | some s =>
      if θ ≤ (((nonGapOf col).count s : Nat) : ℚ) / ((col.length : Nat) : ℚ) then s
      else ambiguousSym

/-- The ordered list of columns of an alignment. -/
def columnsOf (al : List Row) : List (List Char) :=
  (List.range (alWidth al)).map (fun j => colAt al j)

/-- Modelled from the spec: the Consensus Builder (§4.5), absent from the
source — one consensus symbol per alignment column. -/
def consensusResult (θ : ℚ) (al : List Row) : List Char :=
  (columnsOf al).map (colConsensus θ)

/-- A concrete nucleotide alphabet used by the witnesses. -/
def alpha₀ : List Char := ['A', 'C', 'G', 'T']

/-- A concrete scoring scheme used by the witnesses: match +1, mismatch -1,
gap open -2, gap extend -1. -/
def sc₀ : ScoringScheme := ⟨fun x y => if x = y then 1 else -1, -2, -1⟩

/-- Three concrete input sequences used by the witnesses. -/
def seqs₀ : List Sequence :=
  [⟨"s1", ['A', 'C', 'G', 'T']⟩, ⟨"s2", ['A', 'C', 'T']⟩,
   ⟨"s3", ['A', 'G', 'G', 'T']⟩]

/-- The alignment the pipeline produces for the witness inputs. -/
def out₀ : List Row :=
  match msaAlign alpha₀ sc₀ seqs₀ with
  | .ok o => o
  | .error _ => []

/-- C7: the full pipeline fails with the recoverable error value
`InsufficientInput` whenever fewer than 2 sequences are supplied, and the
Distance Matrix Builder fails with `InsufficientInput` whenever it is given
fewer than 3 sequences. -/
theorem pipeline_insufficient_input (alpha : List Char) (sc : ScoringScheme)
    (seqs : List Sequence) :
    (seqs.length < 2 → msaAlign alpha sc seqs = .error .InsufficientInput) ∧
    (seqs.length < 3 → distMatrixB sc seqs = .error .InsufficientInput) := by
  constructor
  · intro h
    simp [msaAlign, h]
  · intro h
    simp [distMatrixB, h]

/-- Witness for C7: one single sequence is refused by the pipeline, and two
sequences are refused by the Distance Matrix Builder. -/
theorem pipeline_insufficient_input_witness :
    msaAlign alpha₀ sc₀ [⟨"s1", ['A']⟩] = .error .InsufficientInput ∧
    distMatrixB sc₀ [⟨"s1", ['A']⟩, ⟨"s2", ['C']⟩] = .error .InsufficientInput :=
  ⟨(pipeline_insufficient_input alpha₀ sc₀ [⟨"s1", ['A']⟩]).1 (by decide),
   (pipeline_insufficient_input alpha₀ sc₀
      [⟨"s1", ['A']⟩, ⟨"s2", ['C']⟩]).2 (by decide)⟩

/-- C8: whenever at least two sequences are supplied and any of them contains
a symbol outside the configured alphabet, the pipeline fails with
`AlphabetMismatch`; no malformed sequence is silently dropped. -/
theorem pipeline_alphabet_mismatch (alpha : List Char) (sc : ScoringScheme)
    (seqs : List Sequence) (h2 : 2 ≤ seqs.length)
    (hbad : ∃ s ∈ seqs, ∃ c ∈ s.residues, c ∉ alpha) :
    msaAlign alpha sc seqs = .error .AlphabetMismatch := by
  have h1 : ¬ seqs.length < 2 := Nat.not_lt.mpr h2
  simp [msaAlign, h1]
  intro hall
  obtain ⟨s, hs, c, hc, hca⟩ := hbad
  exact absurd (hall s hs c hc) hca

/-- Witness for C8: a sequence containing the digit 1 makes the pipeline fail
with `AlphabetMismatch`. -/
theorem pipeline_alphabet_mismatch_witness :
    msaAlign alpha₀ sc₀ [⟨"a", ['A', '1']⟩, ⟨"b", ['A']⟩] =
      .error .AlphabetMismatch :=
  pipeline_alphabet_mismatch alpha₀ sc₀ [⟨"a", ['A', '1']⟩, ⟨"b", ['A']⟩]
    (by decide) (by decide)

theorem bestBy_mem {α : Type} (lt : α → α → Bool) (x : α) (ys : List α) :
    bestBy lt x ys ∈ x :: ys := by
  induction ys generalizing x with
  | nil => simp [bestBy]
  | cons y ys ih =>
      rw [bestBy]
      by_cases h : lt x y = true
      · rw [if_pos h]
        rcases List.mem_cons.mp (ih y) with h1 | h1
        · rw [h1]
          exact List.mem_cons_of_mem x (List.mem_cons_self y ys)
        · exact List.mem_cons_of_mem x (List.mem_cons_of_mem y h1)
      · rw [if_neg h]
        rcases List.mem_cons.mp (ih x) with h1 | h1
        · rw [h1]
          exact List.mem_cons_self x (y :: ys)
        · exact List.mem_cons_of_mem x (List.mem_cons_of_mem y h1)

theorem bestBy_not_beaten {α : Type} (lt : α → α → Bool)
    (hirr : ∀ a, lt a a = false)
    (htrans : ∀ a b c, lt a b = true → lt b c = true → lt a c = true)
    (hneg : ∀ a b c, lt a b = false → lt b c = false → lt a c = false)
    (x : α) (ys : List α) :
    ∀ y ∈ x :: ys, lt (bestBy lt x ys) y = false := by
  have hasym : ∀ a b, lt a b = true → lt b a = false := by
    intro a b hab
    cases hba : lt b a with
    | false => rfl
    | true => exact absurd (htrans a b a hab hba) (by simp [hirr a])
  induction ys generalizing x with
  | nil =>
      intro y hy
      have heq : y = x := List.mem_singleton.mp hy
      subst heq
      simp [bestBy, hirr]
  | cons z zs ih =>
      intro y hy
      rw [bestBy]
      by_cases h : lt x z = true
      · rw [if_pos h]
        rcases List.mem_cons.mp hy with heq | hy2
        · rw [heq]
          exact hneg _ z x (ih z z (List.mem_cons_self z zs)) (hasym x z h)
        · rcases List.mem_cons.mp hy2 with heq | hy3
          · rw [heq]
            exact ih z z (List.mem_cons_self z zs)
          · exact ih z y (List.mem_cons_of_mem z hy3)
      · rw [if_neg h]
        have hxz : lt x z = false := by simpa using h
        rcases List.mem_cons.mp hy with heq | hy2
        · rw [heq]
          exact ih x x (List.mem_cons_self x zs)
        · rcases List.mem_cons.mp hy2 with heq | hy3
          · rw [heq]
            exact hneg _ x z (ih x x (List.mem_cons_self x zs)) hxz
          · exact ih x y (List.mem_cons_of_mem x hy3)

theorem mostFrequent_spec (l : List Char) (s : Char)
    (h : mostFrequent l = some s) :
    s ∈ l ∧ ∀ t ∈ l, l.count t ≤ l.count s := by
  unfold mostFrequent at h
  cases hd : l.dedup with
  | nil => rw [hd] at h; exact absurd h (by simp)
  | cons d rest =>
      rw [hd] at h
      have hs : s = bestBy (fun a b => decide (l.count a < l.count b)) d rest := by
        simpa using h.symm
      have hmem : s ∈ d :: rest := hs ▸ bestBy_mem _ d rest
      have hnb := bestBy_not_beaten (fun a b => decide (l.count a < l.count b))
        (fun a => by simp) (fun a b c h1 h2 => by
          simp only [decide_eq_true_eq] at h1 h2 ⊢; exact h1.trans h2)
        (fun a b c h1 h2 => by
          simp only [decide_eq_false_iff_not, Nat.not_lt] at h1 h2 ⊢; exact h2.trans h1)
        d rest
      constructor
      · exact List.mem_dedup.mp (hd ▸ hmem)
      · intro t ht
        have ht2 : t ∈ d :: rest := hd ▸ List.mem_dedup.mpr ht
        have := hnb t ht2
        rw [← hs] at this
        simpa [Nat.not_lt] using this

theorem mostFrequent_none (l : List Char) (h : mostFrequent l = none) :
    l = [] := by
  unfold mostFrequent at h
  cases hd : l.dedup with
  | nil => exact (List.dedup_eq_nil l).mp hd
  | cons d rest => rw [hd] at h; exact absurd h (by simp)

/-- C2: the consensus operation, whose default majority threshold is 0.5, is
the column-wise map of the per-column rule, and on each column it either
emits a non-gap symbol of maximal count among the non-gap symbols whose count
divided by the number k of rows reaches the threshold, or emits the ambiguous
symbol, in which case every non-gap symbol's count divided by k is below the
threshold. -/
theorem consensus_spec (θ : ℚ) (al : List Row) :
    defaultConsensusThreshold = 1 / 2 ∧
    consensusResult θ al = (columnsOf al).map (colConsensus θ) ∧
    ∀ col ∈ columnsOf al,
      (colConsensus θ col = ambiguousSym ∧
        ∀ s ∈ nonGapOf col,
          (((nonGapOf col).count s : Nat) : ℚ) / ((col.length : Nat) : ℚ) < θ) ∨
      (colConsensus θ col ∈ nonGapOf col ∧
        (∀ t ∈ nonGapOf col,
          (nonGapOf col).count t ≤ (nonGapOf col).count (colConsensus θ col)) ∧
        θ ≤ (((nonGapOf col).count (colConsensus θ col) : Nat) : ℚ) /
          ((col.length : Nat) : ℚ)) := by
  refine ⟨rfl, rfl, ?_⟩
  intro col _
  unfold colConsensus
  cases hm : mostFrequent (nonGapOf col) with
  | none =>
      left
      constructor
      · rfl
      · intro s hs
        rw [mostFrequent_none _ hm] at hs
        exact absurd hs (List.not_mem_nil s)
  | some b =>
      obtain ⟨hbmem, hbmax⟩ := mostFrequent_spec _ b hm
      have hk : 0 < col.length := by
        have h1 : 0 < (nonGapOf col).length :=
          List.length_pos.mpr (List.ne_nil_of_mem hbmem)
        have h2 : (nonGapOf col).length ≤ col.length := by
          simpa [nonGapOf, degap] using
            List.length_filter_le (fun c => !(c == gapSym)) col
        exact Nat.lt_of_lt_of_le h1 h2
      have hkQ : (0 : ℚ) < ((col.length : Nat) : ℚ) := by exact_mod_cast hk
      by_cases hθ : θ ≤ (((nonGapOf col).count b : Nat) : ℚ) / ((col.length : Nat) : ℚ)
      · right
        dsimp only
        rw [if_pos hθ]
        exact ⟨hbmem, hbmax, hθ⟩
      · left
        dsimp only
        rw [if_neg hθ]
        refine ⟨rfl, ?_⟩
        intro s hs
        have hle : (((nonGapOf col).count s : Nat) : ℚ) ≤
            (((nonGapOf col).count b : Nat) : ℚ) := by
          exact_mod_cast hbmax s hs
        calc (((nonGapOf col).count s : Nat) : ℚ) / ((col.length : Nat) : ℚ)
            ≤ (((nonGapOf col).count b : Nat) : ℚ) / ((col.length : Nat) : ℚ) :=
              (div_le_div_iff_of_pos_right hkQ).mpr hle
          _ < θ := lt_of_not_ge hθ

/-- Witness for C2: the per-column majority rule evaluated on the column
C, C, G of a concrete alignment. -/
theorem consensus_spec_witness :
    defaultConsensusThreshold = 1 / 2 ∧
    ((colConsensus (1 / 2) ['C', 'C', 'G'] = ambiguousSym ∧
        ∀ s ∈ nonGapOf ['C', 'C', 'G'],
          (((nonGapOf ['C', 'C', 'G']).count s : Nat) : ℚ) /
            (((['C', 'C', 'G'] : List Char).length : Nat) : ℚ) < 1 / 2) ∨
      (colConsensus (1 / 2) ['C', 'C', 'G'] ∈ nonGapOf ['C', 'C', 'G'] ∧
        (∀ t ∈ nonGapOf ['C', 'C', 'G'],
          (nonGapOf ['C', 'C', 'G']).count t ≤
            (nonGapOf ['C', 'C', 'G']).count (colConsensus (1 / 2) ['C', 'C', 'G'])) ∧
        1 / 2 ≤ (((nonGapOf ['C', 'C', 'G']).count
            (colConsensus (1 / 2) ['C', 'C', 'G']) : Nat) : ℚ) /
          (((['C', 'C', 'G'] : List Char).length : Nat) : ℚ))) :=
  ⟨(consensus_spec (1 / 2) [("a", ['C']), ("b", ['C']), ("c", ['G'])]).1,
   (consensus_spec (1 / 2) [("a", ['C']), ("b", ['C']), ("c", ['G'])]).2.2
     ['C', 'C', 'G'] (by decide)⟩

/-- C5: on any column of any Alignment that contains more than one distinct
symbol, the consensus rule invoked with threshold 1.0 emits the ambiguous
symbol. -/
theorem consensus_threshold_one (al : List Row) (col : List Char)
    (_hcol : col ∈ columnsOf al) (a b : Char) (ha : a ∈ col) (hb : b ∈ col)
    (hne : a ≠ b) : colConsensus 1 col = ambiguousSym := by
  unfold colConsensus
  cases hm : mostFrequent (nonGapOf col) with
  | none => rfl
  | some s =>
      obtain ⟨hsmem, _⟩ := mostFrequent_spec _ s hm
      dsimp only
      rw [if_neg]
      intro hle
      have hk : 0 < col.length := List.length_pos.mpr (List.ne_nil_of_mem ha)
      have hkQ : (0 : ℚ) < ((col.length : Nat) : ℚ) := by exact_mod_cast hk
      have h1 : ((col.length : Nat) : ℚ) ≤ (((nonGapOf col).count s : Nat) : ℚ) :=
        (one_le_div hkQ).mp hle
      have h2 : col.length ≤ (nonGapOf col).count s := by exact_mod_cast h1
      have h3 : (nonGapOf col).count s ≤ col.count s := by
        have hsub : (nonGapOf col).Sublist col := by
          simp [nonGapOf, degap]
        exact hsub.count_le s
      have h4 : col.count s = col.length :=
        Nat.le_antisymm (List.count_le_length s col)
          (Nat.le_trans (Nat.le_trans h2 h3) (Nat.le_refl _))
      have hall : ∀ x ∈ col, s = x := List.count_eq_length.mp h4
      exact hne ((hall a ha).symm.trans (hall b hb))

/-- Witness for C5: the two-symbol column A, C of a concrete two-row
alignment is ambiguous at threshold 1. -/
theorem consensus_threshold_one_witness :
    colConsensus 1 ['A', 'C'] = ambiguousSym :=
  consensus_threshold_one [("a", ['A']), ("b", ['C'])] ['A', 'C']
    (by decide) 'A' 'C' (by decide) (by decide) (by decide)

theorem oMax_comm (a b : Option ℚ) : oMax a b = oMax b a := by
  cases a <;> cases b <;> simp [oMax, max_comm]

theorem oMax_assoc (a b c : Option ℚ) :
    oMax (oMax a b) c = oMax a (oMax b c) := by
  cases a <;> cases b <;> cases c <;> simp [oMax, max_assoc]

theorem oMax_right_comm (a b c : Option ℚ) :
    oMax (oMax a b) c = oMax (oMax a c) b := by
  rw [oMax_assoc, oMax_comm b c, ← oMax_assoc]

theorem sum_map_add (f g : Char → ℚ) (l : List Char) :
    (l.map (fun y => f y + g y)).sum = (l.map f).sum + (l.map g).sum := by
  induction l with
  | nil => simp
  | cons x xs ih =>
      simp only [List.map_cons, List.sum_cons, ih]
      ring

theorem pairScoreSum_nil_right (sub : Char → Char → ℚ) (xs : List Char) :
    pairScoreSum sub xs [] = 0 := by
  simp [pairScoreSum]

theorem pairScoreSum_swap (sub : Char → Char → ℚ) (xs ys : List Char) :
    pairScoreSum sub xs ys = pairScoreSum (fun a b => sub b a) ys xs := by
  induction xs with
  | nil => simp [pairScoreSum, pairScoreSum_nil_right]
  | cons x xs ih =>
      calc pairScoreSum sub (x :: xs) ys
          = (ys.map (fun y => sub x y)).sum + pairScoreSum sub xs ys := by
            simp [pairScoreSum]
        _ = (ys.map (fun y => sub x y)).sum +
              pairScoreSum (fun a b => sub b a) ys xs := by rw [ih]
        _ = pairScoreSum (fun a b => sub b a) ys (x :: xs) := by
            simp only [pairScoreSum, List.map_cons, List.sum_cons]
            rw [sum_map_add (fun y => sub x y)
              (fun y => (xs.map (fun b => sub b y)).sum) ys]

theorem pairScoreSum_congr (f g : Char → Char → ℚ)
    (h : ∀ x y, f x y = g x y) (xs ys : List Char) :
    pairScoreSum f xs ys = pairScoreSum g xs ys :=
  congrArg List.sum (List.map_congr_left (fun x _ =>
    congrArg List.sum (List.map_congr_left (fun y _ => h x y))))

theorem colScore_comm (sub : Char → Char → ℚ)
    (hsym : ∀ x y, sub x y = sub y x) (c1 c2 : List Char) :
    colScore sub c1 c2 = colScore sub c2 c1 := by
  unfold colScore
  by_cases h : (degap c1).length * (degap c2).length = 0
  · rw [if_pos h, if_pos (by rw [Nat.mul_comm]; exact h)]
  · rw [if_neg h, if_neg (by rw [Nat.mul_comm]; exact h)]
    rw [pairScoreSum_swap sub (degap c1) (degap c2)]
    rw [pairScoreSum_congr (fun a b => sub b a) sub (fun x y => hsym y x)]
    rw [Nat.mul_comm (degap c1).length (degap c2).length]

theorem gotohDP_swap (cs cs' : Nat → Nat → ℚ) (go ge : ℚ)
    (h : ∀ i j, cs' j i = cs i j) :
    ∀ f i j,
      (gotohDP cs go ge f i j).1 = (gotohDP cs' go ge f j i).1 ∧
      (gotohDP cs go ge f i j).2.1 = (gotohDP cs' go ge f j i).2.2 ∧
      (gotohDP cs go ge f i j).2.2 = (gotohDP cs' go ge f j i).2.1 := by
  intro f
  induction f with
  | zero =>
      intro i j
      rcases i with _ | i <;> rcases j with _ | j <;> exact ⟨rfl, rfl, rfl⟩
  | succ f ihf =>
      intro i j
      rcases i with _ | i <;> rcases j with _ | j
      · exact ⟨rfl, rfl, rfl⟩
      · obtain ⟨h1, h2, h3⟩ := ihf 0 j
        refine ⟨rfl, ?_, rfl⟩
        simp only [gotohDP]
        rw [h1, h2, h3]
      · obtain ⟨h1, h2, h3⟩ := ihf i 0
        refine ⟨rfl, rfl, ?_⟩
        simp only [gotohDP]
        rw [h1, h2, h3]
      · obtain ⟨d1, d2, d3⟩ := ihf i j
        obtain ⟨l1, l2, l3⟩ := ihf (i + 1) j
        obtain ⟨u1, u2, u3⟩ := ihf i (j + 1)
        refine ⟨?_, ?_, ?_⟩
        · simp only [gotohDP]
          rw [h i j, d1, d2, d3, oMax_right_comm]
        · simp only [gotohDP]
          rw [l1, l2, l3]
        · simp only [gotohDP]
          rw [u1, u2, u3]

theorem alignScoreQ_symm (cs cs' : Nat → Nat → ℚ) (go ge : ℚ)
    (h : ∀ i j, cs' j i = cs i j) (m n : Nat) :
    alignScoreQ cs go ge m n = alignScoreQ cs' go ge n m := by
  obtain ⟨h1, h2, h3⟩ := gotohDP_swap cs cs' go ge h (m + n) m n
  unfold alignScoreQ gotohCell
  dsimp only
  rw [Nat.add_comm n m]
  rw [h1, h2, h3, oMax_right_comm]

/-- C6: the pairwise alignment operation is symmetric in its optimal score:
for any symmetric substitution scheme and any two input Alignments A and B,
aligning A with B yields the same optimal score as aligning B with A. -/
theorem alignPair_score_symm (sc : ScoringScheme)
    (hsym : ∀ x y, sc.sub x y = sc.sub y x) (A B : List Row) :
    (alignPair sc A B).1 = (alignPair sc B A).1 := by
  unfold alignPair
  dsimp only
  exact alignScoreQ_symm (fun i j => colScore sc.sub (colAt A i) (colAt B j))
    (fun i j => colScore sc.sub (colAt B i) (colAt A j))
    sc.gapOpen sc.gapExtend
    (fun i j => colScore_comm sc.sub hsym (colAt B j) (colAt A i))
    (alWidth A) (alWidth B)

/-- Witness for C6: the symmetric match/mismatch scheme scores AC against C
the same in both orders. -/
theorem alignPair_score_symm_witness :
    (alignPair sc₀ [("a", ['A', 'C'])] [("b", ['C'])]).1 =
      (alignPair sc₀ [("b", ['C'])] [("a", ['A', 'C'])]).1 :=
  alignPair_score_symm sc₀
    (by
      intro x y
      show (if x = y then (1 : ℚ) else -1) = (if y = x then 1 else -1)
      by_cases h : x = y
      · rw [if_pos h, if_pos h.symm]
      · rw [if_neg h, if_neg (fun hh => h hh.symm)])
    [("a", ['A', 'C'])] [("b", ['C'])]

/-- Lexicographic weak order on identifier keys. -/
def keyLe (a b : Nat × Nat) : Prop :=
  a.1 < b.1 ∨ (a.1 = b.1 ∧ a.2 ≤ b.2)

theorem tripLt_irrefl (x : ℚ × Nat × Nat) : ¬ tripLtP x x := by
  rintro (h | ⟨-, h | ⟨-, h⟩⟩) <;> exact lt_irrefl _ h

theorem tripLt_trans {x y z : ℚ × Nat × Nat} :
    tripLtP x y → tripLtP y z → tripLtP x z := by
  rintro (h1 | ⟨e1, h1⟩) (h2 | ⟨e2, h2⟩)
  · exact Or.inl (h1.trans h2)
  · exact Or.inl (by rw [← e2]; exact h1)
  · exact Or.inl (by rw [e1]; exact h2)
  · right
    refine ⟨e1.trans e2, ?_⟩
    rcases h1 with h1 | ⟨f1, g1⟩ <;> rcases h2 with h2 | ⟨f2, g2⟩
    · exact Or.inl (h1.trans h2)
    · exact Or.inl (by rw [← f2]; exact h1)
    · exact Or.inl (by rw [f1]; exact h2)
    · exact Or.inr ⟨f1.trans f2, g1.trans g2⟩

theorem tripLt_total (x y : ℚ × Nat × Nat) :
    tripLtP x y ∨ x = y ∨ tripLtP y x := by
  rcases lt_trichotomy x.1 y.1 with h | h | h
  · exact Or.inl (Or.inl h)
  · rcases lt_trichotomy x.2.1 y.2.1 with h2 | h2 | h2
    · exact Or.inl (Or.inr ⟨h, Or.inl h2⟩)
    · rcases lt_trichotomy x.2.2 y.2.2 with h3 | h3 | h3
      · exact Or.inl (Or.inr ⟨h, Or.inr ⟨h2, h3⟩⟩)
      · exact Or.inr (Or.inl (Prod.ext h (Prod.ext h2 h3)))
      · exact Or.inr (Or.inr (Or.inr ⟨h.symm, Or.inr ⟨h2.symm, h3⟩⟩))
    · exact Or.inr (Or.inr (Or.inr ⟨h.symm, Or.inl h2⟩))
  · exact Or.inr (Or.inr (Or.inl h))

theorem pairsOf_mem {α : Type} (l : List α) (p : α × α)
    (h : p ∈ pairsOf l) : p.1 ∈ l ∧ p.2 ∈ l := by
  induction l with
  | nil => exact absurd h (List.not_mem_nil p)
  | cons x xs ih =>
      simp only [pairsOf, List.mem_append, List.mem_map] at h
      rcases h with ⟨y, hy, heq⟩ | h
      · rw [← heq]
        exact ⟨List.mem_cons_self x xs, List.mem_cons_of_mem x hy⟩
      · obtain ⟨h1, h2⟩ := ih h
        exact ⟨List.mem_cons_of_mem x h1, List.mem_cons_of_mem x h2⟩

/-- C4: guide-tree construction is a pure function of the distance matrix, so
two runs on identical input coincide, and the merge-pair selection is
deterministic down to ties: the selected pair belongs to the candidate pairs,
has minimal inter-cluster distance, and among all candidates of that same
minimal distance its pair of smallest-contained original identifiers is
lexicographically least. -/
theorem upgma_deterministic_tiebreak (d : Nat → Nat → ℚ) (n : Nat)
    (cs : List Cluster) (a b : Cluster)
    (hsel : selectPair d cs = some (a, b)) :
    upgma n d = upgma n d ∧
    (a, b) ∈ pairsOf cs ∧
    ∀ pq ∈ pairsOf cs,
      cdist d a b ≤ cdist d pq.1 pq.2 ∧
      (cdist d a b = cdist d pq.1 pq.2 →
        keyLe (minKey a b) (minKey pq.1 pq.2)) := by
  refine ⟨rfl, ?_⟩
  unfold selectPair at hsel
  cases hps : pairsOf cs with
  | nil => rw [hps] at hsel; exact absurd hsel (by simp)
  | cons p ps =>
      rw [hps] at hsel
      have hab : (a, b) = bestBy
          (fun u v => decide (tripLtP (pairKey d v) (pairKey d u))) p ps := by
        simpa using hsel.symm
      have hmem : (a, b) ∈ p :: ps := hab ▸ bestBy_mem _ p ps
      have hirr : ∀ u, (fun u v => decide (tripLtP (pairKey d v) (pairKey d u))) u u = false :=
        fun u => decide_eq_false (tripLt_irrefl _)
      have htrans : ∀ u v w,
          (fun u v => decide (tripLtP (pairKey d v) (pairKey d u))) u v = true →
          (fun u v => decide (tripLtP (pairKey d v) (pairKey d u))) v w = true →
          (fun u v => decide (tripLtP (pairKey d v) (pairKey d u))) u w = true :=
        fun u v w h1 h2 => decide_eq_true
          (tripLt_trans (of_decide_eq_true h2) (of_decide_eq_true h1))
      have hneg : ∀ u v w,
          (fun u v => decide (tripLtP (pairKey d v) (pairKey d u))) u v = false →
          (fun u v => decide (tripLtP (pairKey d v) (pairKey d u))) v w = false →
          (fun u v => decide (tripLtP (pairKey d v) (pairKey d u))) u w = false := by
        intro u v w h1 h2
        have hn1 : ¬ tripLtP (pairKey d v) (pairKey d u) := of_decide_eq_false h1
        have hn2 : ¬ tripLtP (pairKey d w) (pairKey d v) := of_decide_eq_false h2
        refine decide_eq_false ?_
        intro hwu
        rcases tripLt_total (pairKey d w) (pairKey d v) with h | h | h
        · exact hn2 h
        · rw [h] at hwu; exact hn1 hwu
        · exact hn1 (tripLt_trans h hwu)
      have hnb := bestBy_not_beaten _ hirr htrans hneg p ps
      constructor
      · exact hmem
      · intro pq hpq
        have hf : decide (tripLtP (pairKey d pq) (pairKey d (a, b))) = false := by
          have := hnb pq hpq
          rw [← hab] at this
          exact this
        have hnotlt : ¬ tripLtP (pairKey d pq) (pairKey d (a, b)) :=
          of_decide_eq_false hf
        rcases tripLt_total (pairKey d (a, b)) (pairKey d pq) with hlt | heq | hgt
        · rcases hlt with hd | ⟨hde, hk⟩
          · exact ⟨le_of_lt hd, fun he => absurd he (ne_of_lt hd)⟩
          · refine ⟨le_of_eq hde, fun _ => ?_⟩
            rcases hk with h | ⟨h1, h2⟩
            · exact Or.inl h
            · exact Or.inr ⟨h1, le_of_lt h2⟩
        · have h1 : cdist d a b = cdist d pq.1 pq.2 := congrArg Prod.fst heq
          have h2 : (minKey a b).1 = (minKey pq.1 pq.2).1 :=
            congrArg (fun t => t.2.1) heq
          have h3 : (minKey a b).2 = (minKey pq.1 pq.2).2 :=
            congrArg (fun t => t.2.2) heq
          exact ⟨le_of_eq h1, fun _ => Or.inr ⟨h2, le_of_eq h3⟩⟩
        · exact absurd hgt hnotlt

/-- Witness for C4: in a three-cluster pool where the pairs 0-1 and 0-2 tie
at distance 1, the selection takes the pair 0-1, whose identifier key is
lexicographically smaller. -/
theorem upgma_deterministic_tiebreak_witness :
    upgma 3 (fun i j => if i = j then 0 else 1) =
      upgma 3 (fun i j => if i = j then 0 else 1) ∧
    (⟨[0], GuideTree.leaf 0⟩, (⟨[1], GuideTree.leaf 1⟩ : Cluster)) ∈
      pairsOf (initClusters 3) ∧
    ∀ pq ∈ pairsOf (initClusters 3),
      cdist (fun i j => if i = j then 0 else 1)
          ⟨[0], GuideTree.leaf 0⟩ ⟨[1], GuideTree.leaf 1⟩ ≤
        cdist (fun i j => if i = j then 0 else 1) pq.1 pq.2 ∧
      (cdist (fun i j => if i = j then 0 else 1)
          ⟨[0], GuideTree.leaf 0⟩ ⟨[1], GuideTree.leaf 1⟩ =
        cdist (fun i j => if i = j then 0 else 1) pq.1 pq.2 →
        keyLe (minKey ⟨[0], GuideTree.leaf 0⟩ ⟨[1], GuideTree.leaf 1⟩)
          (minKey pq.1 pq.2)) :=
  upgma_deterministic_tiebreak (fun i j => if i = j then 0 else 1) 3
    (initClusters 3) ⟨[0], GuideTree.leaf 0⟩ ⟨[1], GuideTree.leaf 1⟩
    (by decide)

theorem headD_mem {α : Type} (l : List α) (d : α) (h : l ≠ []) :
    l.headD d ∈ l := by
  cases l with
  | nil => exact absurd rfl h
  | cons x xs => exact List.mem_cons_self x xs

theorem insertGapsBy_length (f : Move → Bool) (p : List Move) (r : List Char) :
    (insertGapsBy f p r).length = p.length := by
  induction p generalizing r with
  | nil => rfl
  | cons mv p ih =>
      by_cases h : f mv = true
      · simp [insertGapsBy, h, ih]
      · simp [insertGapsBy, h, ih]

theorem degap_insertGapsBy (f : Move → Bool) (p : List Move) (r : List Char)
    (h : p.countP (fun mv => !(f mv)) = r.length) :
    degap (insertGapsBy f p r) = degap r := by
  induction p generalizing r with
  | nil =>
      have : r = [] := List.length_eq_zero.mp h.symm
      rw [this]
      rfl
  | cons mv p ih =>
      by_cases hf : f mv = true
      · have h' : p.countP (fun mv => !(f mv)) = r.length := by
          simpa [List.countP_cons, hf] using h
        simp only [insertGapsBy, hf, if_pos]
        have hg : degap (gapSym :: insertGapsBy f p r) =
            degap (insertGapsBy f p r) := by
          simp [degap]
        rw [hg, ih r h']
      · have h' : p.countP (fun mv => !(f mv)) + 1 = r.length := by
          simpa [List.countP_cons, hf] using h
        cases r with
        | nil => exact absurd h' (by simp)
        | cons c r' =>
            have h'' : p.countP (fun mv => !(f mv)) = r'.length := by
              simpa using h'
            simp only [insertGapsBy, hf, if_neg, List.headD_cons, List.drop_one,
              List.tail_cons, Bool.false_eq_true, ite_false]
            simp only [degap, List.filter_cons]
            rw [show (insertGapsBy f p r').filter (fun c => !(c == gapSym)) =
              degap (insertGapsBy f p r') from rfl, ih r' h'']
            rfl

theorem tracebackF_count (cs : Nat → Nat → ℚ) (go ge : ℚ) :
    ∀ f i j, i + j ≤ f →
      (tracebackF cs go ge f i j).countP (fun mv => !(mv == Move.onlyB)) = i ∧
      (tracebackF cs go ge f i j).countP (fun mv => !(mv == Move.onlyA)) = j := by
  intro f
  induction f with
  | zero =>
      intro i j hij
      have hi : i = 0 := Nat.eq_zero_of_add_eq_zero_right (Nat.le_zero.mp hij)
      have hj : j = 0 := Nat.eq_zero_of_add_eq_zero_left (Nat.le_zero.mp hij)
      rw [hi, hj]
      exact ⟨rfl, rfl⟩
  | succ f ihf =>
      intro i j hij
      rcases i with _ | i <;> rcases j with _ | j
      · exact ⟨rfl, rfl⟩
      · obtain ⟨h1, h2⟩ := ihf 0 j (by omega)
        constructor
        · simp [tracebackF, List.countP_append, h1, List.countP_cons]
        · simp [tracebackF, List.countP_append, h2, List.countP_cons]
      · obtain ⟨h1, h2⟩ := ihf i 0 (by omega)
        constructor
        · simp [tracebackF, List.countP_append, h1, List.countP_cons]
        · simp [tracebackF, List.countP_append, h2, List.countP_cons]
      · obtain ⟨d1, d2⟩ := ihf i j (by omega)
        obtain ⟨l1, l2⟩ := ihf (i + 1) j (by omega)
        obtain ⟨u1, u2⟩ := ihf i (j + 1) (by omega)
        constructor
        · simp only [tracebackF]
          split
          · simp [List.countP_append, List.countP_cons, d1]
          · split
            · simp [List.countP_append, List.countP_cons, l1]
            · simp [List.countP_append, List.countP_cons, u1]
        · simp only [tracebackF]
          split
          · simp [List.countP_append, List.countP_cons, d2]
          · split
            · simp [List.countP_append, List.countP_cons, l2]
            · simp [List.countP_append, List.countP_cons, u2]
theorem alignPair_rows (sc : ScoringScheme) (A B : List Row) :
    ∃ path : List Move,
      (alignPair sc A B).2 =
        A.map (fun r => (r.1, insertGapsBy (fun mv => mv == Move.onlyB) path r.2)) ++
        B.map (fun r => (r.1, insertGapsBy (fun mv => mv == Move.onlyA) path r.2)) ∧
      path.countP (fun mv => !(mv == Move.onlyB)) = alWidth A ∧
      path.countP (fun mv => !(mv == Move.onlyA)) = alWidth B := by
  refine ⟨traceback (fun i j => colScore sc.sub (colAt A i) (colAt B j))
    sc.gapOpen sc.gapExtend (alWidth A) (alWidth B), rfl, ?_, ?_⟩
  · exact (tracebackF_count _ sc.gapOpen sc.gapExtend
      (alWidth A + alWidth B) (alWidth A) (alWidth B) (Nat.le_refl _)).1
  · exact (tracebackF_count _ sc.gapOpen sc.gapExtend
      (alWidth A + alWidth B) (alWidth A) (alWidth B) (Nat.le_refl _)).2

theorem progressive_invariant (sc : ScoringScheme) (seqs : List Sequence) :
    ∀ t : GuideTree,
      progressiveAlign sc seqs t ≠ [] ∧
      (∀ r ∈ progressiveAlign sc seqs t,
        r.2.length = alWidth (progressiveAlign sc seqs t)) ∧
      (progressiveAlign sc seqs t).map (fun r => (r.1, degap r.2)) =
        (leavesOf t).map (fun i =>
          ((seqs.getD i dfltSeq).id, degap (seqs.getD i dfltSeq).residues)) := by
  intro t
  induction t with
  | leaf i =>
      refine ⟨by simp [progressiveAlign], ?_, by simp [progressiveAlign, leavesOf]⟩
      intro r hr
      have : r = ((seqs.getD i dfltSeq).id, (seqs.getD i dfltSeq).residues) := by
        simpa [progressiveAlign] using hr
      rw [this]
      rfl
  | node ht l r ihl ihr =>
      obtain ⟨hlne, hlw, hld⟩ := ihl
      obtain ⟨hrne, hrw, hrd⟩ := ihr
      obtain ⟨path, hrows, hcA, hcB⟩ :=
        alignPair_rows sc (progressiveAlign sc seqs l) (progressiveAlign sc seqs r)
      have hpa : progressiveAlign sc seqs (GuideTree.node ht l r) =
          (alignPair sc (progressiveAlign sc seqs l)
            (progressiveAlign sc seqs r)).2 := rfl
      have hne : progressiveAlign sc seqs (GuideTree.node ht l r) ≠ [] := by
        rw [hpa, hrows]
        intro hcontra
        rcases List.append_eq_nil.mp hcontra with ⟨h1, -⟩
        exact hlne (List.map_eq_nil_iff.mp h1)
      have hlen : ∀ rr ∈ progressiveAlign sc seqs (GuideTree.node ht l r),
          rr.2.length = path.length := by
        rw [hpa, hrows]
        intro rr hrr
        rcases List.mem_append.mp hrr with hm | hm
        · obtain ⟨x, -, hx⟩ := List.mem_map.mp hm
          rw [← hx]
          exact insertGapsBy_length _ path x.2
        · obtain ⟨x, -, hx⟩ := List.mem_map.mp hm
          rw [← hx]
          exact insertGapsBy_length _ path x.2
      refine ⟨hne, ?_, ?_⟩
      · intro rr hrr
        rw [hlen rr hrr]
        unfold alWidth
        rw [hlen _ (headD_mem _ _ hne)]
      · rw [hpa, hrows, List.map_append, List.map_map, List.map_map]
        have hA : (progressiveAlign sc seqs l).map
            ((fun rr : Row => (rr.1, degap rr.2)) ∘
              (fun rr : Row => (rr.1, insertGapsBy (fun mv => mv == Move.onlyB) path rr.2))) =
            (progressiveAlign sc seqs l).map (fun rr => (rr.1, degap rr.2)) := by
          refine List.map_congr_left ?_
          intro x hx
          simp only [Function.comp_apply]
          rw [degap_insertGapsBy _ path x.2 (by rw [hcA, hlw x hx])]
        have hB : (progressiveAlign sc seqs r).map
            ((fun rr : Row => (rr.1, degap rr.2)) ∘
              (fun rr : Row => (rr.1, insertGapsBy (fun mv => mv == Move.onlyA) path rr.2))) =
            (progressiveAlign sc seqs r).map (fun rr => (rr.1, degap rr.2)) := by
          refine List.map_congr_left ?_
          intro x hx
          simp only [Function.comp_apply]
          rw [degap_insertGapsBy _ path x.2 (by rw [hcB, hrw x hx])]
        rw [hA, hB, hld, hrd]
        show _ = (leavesOf (GuideTree.node ht l r)).map _
        rw [show leavesOf (GuideTree.node ht l r) = leavesOf l ++ leavesOf r from rfl,
          List.map_append]

theorem selectPair_mem (d : Nat → Nat → ℚ) (cs : List Cluster)
    (a b : Cluster) (h : selectPair d cs = some (a, b)) :
    a ∈ cs ∧ b ∈ cs := by
  unfold selectPair at h
  cases hps : pairsOf cs with
  | nil => rw [hps] at h; exact absurd h (by simp)
  | cons p ps =>
      rw [hps] at h
      have hab : (a, b) = bestBy
          (fun u v => decide (tripLtP (pairKey d v) (pairKey d u))) p ps := by
        simpa using h.symm
      have hmem : (a, b) ∈ pairsOf cs := by
        rw [hps]
        exact hab ▸ bestBy_mem _ p ps
      exact pairsOf_mem cs (a, b) hmem

theorem upgmaStep_leaves (d : Nat → Nat → ℚ) (n : Nat) (cs : List Cluster)
    (h : ∀ c ∈ cs, ∀ i ∈ leavesOf c.tree, i < n) :
    ∀ c ∈ upgmaStep d cs, ∀ i ∈ leavesOf c.tree, i < n := by
  unfold upgmaStep
  cases hsel : selectPair d cs with
  | none => exact h
  | some ab =>
      obtain ⟨ha, hb⟩ := selectPair_mem d cs ab.1 ab.2 (by rw [hsel])
      intro c hc
      rcases List.mem_cons.mp hc with heq | hmem
      · rw [heq]
        intro i hi
        rcases List.mem_append.mp hi with hil | hir
        · exact h ab.1 ha i hil
        · exact h ab.2 hb i hir
      · exact h c (List.mem_of_mem_erase (List.mem_of_mem_erase hmem))

theorem upgmaStep_ne_nil (d : Nat → Nat → ℚ) (cs : List Cluster)
    (h : cs ≠ []) : upgmaStep d cs ≠ [] := by
  unfold upgmaStep
  cases hsel : selectPair d cs with
  | none => exact h
  | some ab => simp

theorem upgmaIter_leaves (d : Nat → Nat → ℚ) (n : Nat) :
    ∀ k (cs : List Cluster),
      (∀ c ∈ cs, ∀ i ∈ leavesOf c.tree, i < n) → cs ≠ [] →
      (∀ c ∈ upgmaIter d k cs, ∀ i ∈ leavesOf c.tree, i < n) ∧
      upgmaIter d k cs ≠ [] := by
  intro k
  induction k with
  | zero => exact fun cs h hne => ⟨h, hne⟩
  | succ k ih =>
      intro cs h hne
      exact ih (upgmaStep d cs) (upgmaStep_leaves d n cs h)
        (upgmaStep_ne_nil d cs hne)

theorem upgma_leaves_lt (n : Nat) (d : Nat → Nat → ℚ) (hn : 0 < n) :
    ∀ i ∈ leavesOf (upgma n d), i < n := by
  have hinit : ∀ c ∈ initClusters n, ∀ i ∈ leavesOf c.tree, i < n := by
    intro c hc i hi
    obtain ⟨m, hm, hcm⟩ := List.mem_map.mp hc
    rw [← hcm] at hi
    have : i = m := by simpa [leavesOf] using hi
    rw [this]
    exact List.mem_range.mp hm
  have hne : initClusters n ≠ [] := by
    unfold initClusters
    intro hcon
    have := List.map_eq_nil_iff.mp hcon
    rw [List.range_eq_nil] at this
    omega
  obtain ⟨hall, hne2⟩ := upgmaIter_leaves d n (n - 1) (initClusters n) hinit hne
  unfold upgma
  exact hall _ (headD_mem _ _ hne2)

theorem msaAlign_ok_shape (alpha : List Char) (sc : ScoringScheme)
    (seqs : List Sequence) (out : List Row)
    (hok : msaAlign alpha sc seqs = .ok out) :
    (∀ s ∈ seqs, ∀ c ∈ s.residues, c ∈ alpha) ∧
    ∃ t : GuideTree, out = progressiveAlign sc seqs t ∧
      ∀ i ∈ leavesOf t, i < seqs.length := by
  unfold msaAlign at hok
  by_cases h1 : seqs.length < 2
  · rw [if_pos h1] at hok
    exact absurd hok (by simp)
  rw [if_neg h1] at hok
  by_cases h2 : seqs.any (fun s => s.residues.any (fun c => !(alpha.contains c))) = true
  · rw [if_pos h2] at hok
    exact absurd hok (by simp)
  rw [if_neg h2] at hok
  have hgood : ∀ s ∈ seqs, ∀ c ∈ s.residues, c ∈ alpha := by
    intro s hs c hc
    by_contra hcn
    apply h2
    simp only [List.any_eq_true]
    exact ⟨s, hs, c, hc, by simpa using hcn⟩
  by_cases h3 : seqs.any (fun s => s.residues.isEmpty) = true
  · rw [if_pos h3] at hok
    exact absurd hok (by simp)
  rw [if_neg h3] at hok
  by_cases h4 : seqs.length = 2
  · rw [if_pos h4] at hok
    refine ⟨hgood, GuideTree.node 0 (.leaf 0) (.leaf 1), ?_, ?_⟩
    · simpa using hok.symm
    · intro i hi
      have : i = 0 ∨ i = 1 := by simpa [leavesOf] using hi
      omega
  · rw [if_neg h4] at hok
    have h5 : ¬ seqs.length < 3 := by omega
    unfold distMatrixB at hok
    rw [if_neg h5] at hok
    refine ⟨hgood, _, by simpa using hok.symm, ?_⟩
    exact upgma_leaves_lt seqs.length _ (by omega)

/-- C3: in every Alignment the pipeline produces, all aligned rows (data
symbols plus gaps) have the same length, the alignment width. -/
theorem alignment_uniform_width (alpha : List Char) (sc : ScoringScheme)
    (seqs : List Sequence) (out : List Row)
    (hok : msaAlign alpha sc seqs = .ok out) :
    ∀ r ∈ out, r.2.length = alWidth out := by
  obtain ⟨-, t, rfl, -⟩ := msaAlign_ok_shape alpha sc seqs out hok
  exact (progressive_invariant sc seqs t).2.1

/-- C1: for every row of an Alignment the pipeline produces, deleting every
gap symbol yields exactly the residues of an original input Sequence carrying
that row's identifier, residue order preserved. -/
theorem alignment_roundtrip (alpha : List Char) (sc : ScoringScheme)
    (seqs : List Sequence) (out : List Row) (hga : gapSym ∉ alpha)
    (hok : msaAlign alpha sc seqs = .ok out) :
    ∀ r ∈ out, ∃ s ∈ seqs, r.1 = s.id ∧ degap r.2 = s.residues := by
  obtain ⟨hgood, t, rfl, hlv⟩ := msaAlign_ok_shape alpha sc seqs out hok
  intro r hr
  have hmapeq := (progressive_invariant sc seqs t).2.2
  have hfr : (r.1, degap r.2) ∈ (leavesOf t).map (fun i =>
      ((seqs.getD i dfltSeq).id, degap (seqs.getD i dfltSeq).residues)) := by
    rw [← hmapeq]
    exact List.mem_map.mpr ⟨r, hr, rfl⟩
  obtain ⟨i, hi, heq⟩ := List.mem_map.mp hfr
  have hilt : i < seqs.length := hlv i hi
  have hsmem : seqs.getD i dfltSeq ∈ seqs := by
    rw [List.getD_eq_getElem?_getD, List.getElem?_eq_getElem hilt]
    exact List.getElem_mem hilt
  refine ⟨seqs.getD i dfltSeq, hsmem, ?_, ?_⟩
  · exact (congrArg Prod.fst heq).symm
  · have h2 : degap (seqs.getD i dfltSeq).residues = degap r.2 :=
      congrArg Prod.snd heq
    have h3 : degap (seqs.getD i dfltSeq).residues =
        (seqs.getD i dfltSeq).residues := by
      unfold degap
      refine List.filter_eq_self.mpr ?_
      intro c hc
      have hcal : c ∈ alpha := hgood _ hsmem c hc
      have hcg : c ≠ gapSym := fun hcg => hga (hcg ▸ hcal)
      simpa using hcg
    rw [← h2, h3]

set_option maxRecDepth 1000000 in
/-- Witness for C3: the first row of the concrete pipeline output has the
alignment width. -/
theorem alignment_uniform_width_witness :
    (out₀.headD ("", [])).2.length = alWidth out₀ :=
  alignment_uniform_width alpha₀ sc₀ seqs₀ out₀ rfl (out₀.headD ("", []))
    (headD_mem out₀ ("", []) (by decide))

set_option maxRecDepth 1000000 in
/-- Witness for C1: degapping the first row of the concrete pipeline output
recovers an original input sequence. -/
theorem alignment_roundtrip_witness :
    ∃ s ∈ seqs₀, (out₀.headD ("", [])).1 = s.id ∧
      degap (out₀.headD ("", [])).2 = s.residues :=
  alignment_roundtrip alpha₀ sc₀ seqs₀ out₀ (by decide) rfl
    (out₀.headD ("", [])) (headD_mem out₀ ("", []) (by decide))
